import Mathlib

/-!
Verification of the Remora hybrid memory store.

The development shallowly embeds the TypeScript source:
* `src/vector/index.ts` — `cosine` and `LocalVectorIndex` (`clear`, `upsert`,
  `delete`, `search`).  JavaScript numbers are modelled as real numbers; the
  JS `Map` is modelled as an insertion-ordered association list (a `Map`
  iterates in insertion order, and `set` on an existing key keeps its
  position); `Array.prototype.sort` with the comparator
  `(a, b) => b.score - a.score` is a stable descending-by-score sort,
  modelled by `List.mergeSort` with `scoreLE`.
* `src/server.ts` — the MCP tools `add_memory`, `search_memories`,
  `delete_memory` and the REST route `POST /v1/memories`.  The Mongo
  collection is modelled as a list of documents; `insertOne` is a parameter
  that may fail (an `Except`), modelling a rejected promise: when it fails
  the statements after the `await` do not run, so the handler returns with
  the store and the index unchanged.
* `README.md` — `rebuildLocalVectorIndex`.
-/

namespace Remora

/-- A JS `number[]` vector, with numbers modelled as reals. -/
abbrev Vec := List ℝ

/-- `cosine` from `src/vector/index.ts`: returns `0` on a length mismatch,
accumulates the dot product and both squared norms in one pass, and returns
`0` when the denominator `sqrt(na) * sqrt(nb)` is zero. -/
noncomputable def cosine (a b : Vec) : ℝ :=
  if a.length ≠ b.length then 0
  else
    let dot := ((a.zip b).map fun p => p.1 * p.2).sum
    let na := (a.map fun x => x * x).sum
    let nb := (b.map fun y => y * y).sum
    let denom := Real.sqrt na * Real.sqrt nb
    if denom = 0 then 0 else dot / denom

/-- The sum of squares of the entries of a vector (the `na` / `nb`
accumulator of `cosine`). -/
def sumSq (a : Vec) : ℝ := (a.map fun x => x * x).sum

/-- The Euclidean norm of a vector. -/
noncomputable def normV (a : Vec) : ℝ := Real.sqrt (sumSq a)

/-- The dot product of two vectors, over the common prefix. -/
def dotV (a b : Vec) : ℝ := ((a.zip b).map fun p => p.1 * p.2).sum

/-- The internal state of `LocalVectorIndex`: a JS `Map` keyed by memory id,
kept as an insertion-ordered association list. -/
abbrev IndexState := List (String × Vec)

/-- JS `Map.prototype.set`: if the key is present its value is replaced in
place (the key keeps its insertion position), otherwise the pair is appended
at the end. -/
def mapSet (m : IndexState) (k : String) (v : Vec) : IndexState :=
  if m.any fun p => p.1 = k then
    m.map fun p => if p.1 = k then (k, v) else p
  else
    m ++ [(k, v)]

/-- JS `Map.prototype.delete`: removes the entry for the key, if any. -/
def mapDelete (m : IndexState) (k : String) : IndexState :=
  m.filter fun p => p.1 ≠ k

/-- The list of keys of an index state. -/
def keys (m : IndexState) : List String := m.map Prod.fst

/-- The comparator of `LocalVectorIndex.search`:
`scored.sort((a, b) => b.score - a.score)` puts `a` before `b` exactly when
`b.score ≤ a.score`, stably. -/
noncomputable def scoreLE (a b : String × ℝ) : Bool := decide (b.2 ≤ a.2)

namespace LocalVectorIndex

/-- `clear()` from `src/vector/index.ts`. -/
def clear (_m : IndexState) : IndexState := []

/-- `upsert(memoryId, embedding)` from `src/vector/index.ts`. -/
def upsert (m : IndexState) (memoryId : String) (embedding : Vec) : IndexState :=
  mapSet m memoryId embedding

/-- `delete(memoryId)` from `src/vector/index.ts`. -/
def delete (m : IndexState) (memoryId : String) : IndexState :=
  mapDelete m memoryId

/-- `search(query, topK)` from `src/vector/index.ts`: score every entry in
insertion order, sort stably by descending score, and truncate to `topK`. -/
noncomputable def search (m : IndexState) (query : Vec) (topK : Nat) :
    List (String × ℝ) :=
  let scored := m.map fun p => (p.1, cosine query p.2)
  let sorted := scored.mergeSort scoreLE
  sorted.take topK

end LocalVectorIndex

/-- One upsert or delete operation on the vector index. -/
inductive Op where
  | upsert (id : String) (v : Vec)
  | delete (id : String)

/-- Apply one operation to an index state. -/
def applyOp (m : IndexState) : Op → IndexState
  | .upsert id v => LocalVectorIndex.upsert m id v
  | .delete id => LocalVectorIndex.delete m id

/-- The index state produced by a finite sequence of operations run against
the empty index. -/
def runOps (ops : List Op) : IndexState := ops.foldl applyOp []

/-- One step of the liveness fold below. -/
def liveStep (id : String) (b : Bool) : Op → Bool
  | .upsert i _ => if i = id then true else b
  | .delete i => if i = id then false else b

/-- Whether `id` was upserted and not subsequently deleted by `ops`. -/
def live (ops : List Op) (id : String) : Bool :=
  ops.foldl (liveStep id) false

/-- A memory document as written by `add_memory` / `POST /v1/memories`.
The `agent_id` column stores `args.agent_id ?? null`; `null` is `none`.
Timestamps are opaque. -/
structure Doc where
  memory_id : String
  user_id : String
  agent_id : Option String
  scope : String
  encrypted_text : String
  embedding : Vec
  embedding_model : String
  embedding_dim : Nat
  created_at : Nat

/-- The record shape returned by `search_memories`: exactly the six fields of
the projection in `src/server.ts`, with no `embedding` field. -/
structure OutMemory where
  memory_id : String
  encrypted_text : String
  scope : String
  agent_id : Option String
  created_at : Nat
  embedding_model : String
deriving DecidableEq

/-- The projection applied to each fetched document before returning it. -/
def project (m : Doc) : OutMemory :=
  { memory_id := m.memory_id
    encrypted_text := m.encrypted_text
    scope := m.scope
    agent_id := m.agent_id
    created_at := m.created_at
    embedding_model := m.embedding_model }

/-- The Mongo `scopeFilter` of `search_memories`: owned by the requesting
user, among the ranked candidate ids, and either global scope or agent scope
with the stored `agent_id` equal to `args.agent_id ?? null`. -/
def scopeFilterB (uid : String) (aid : Option String) (rankedIds : List String)
    (d : Doc) : Bool :=
  decide (d.user_id = uid ∧ d.memory_id ∈ rankedIds ∧
    (d.scope = "global" ∨ (d.scope = "agent" ∧ d.agent_id = aid)))

/-- `docMap.get(id)` where `docMap = new Map(docs.map(d => [d.memory_id, d]))`:
a JS `Map` built from a pair list keeps the last pair for each key. -/
def docMapGet (docs : List Doc) (id : String) : Option Doc :=
  docs.reverse.find? fun d => decide (d.memory_id = id)

/-- The `search_memories` tool from `src/server.ts` (the `/v1/search` route is
the same logic): rank candidates in the shared vector index, fetch the
documents passing the scope filter, re-order them by candidate rank dropping
misses, and project each survivor. -/
noncomputable def search_memories (store : List Doc) (idx : IndexState)
    (user_id : String) (agent_id : Option String) (query_embedding : Vec)
    (top_k : Nat) : List OutMemory :=
  let ranked := LocalVectorIndex.search idx query_embedding top_k
  let rankedIds := ranked.map fun r => r.1
  if rankedIds.isEmpty then []
  else
    let docs := store.filter (scopeFilterB user_id agent_id rankedIds)
    let ordered := rankedIds.filterMap fun id => docMapGet docs id
    ordered.map project

/-- The document built by `add_memory` / `POST /v1/memories` before insertion.
The fresh `uuidv4()` and `new Date()` are parameters. -/
def mkDoc (user_id : String) (agent_id : Option String) (scope : String)
    (encrypted_text : String) (embedding : Vec)
    (embedding_model : Option String) (memory_id : String) (now : Nat) : Doc :=
  { memory_id := memory_id
    user_id := user_id
    agent_id := agent_id
    scope := scope
    encrypted_text := encrypted_text
    embedding := embedding
    embedding_model := embedding_model.getD "client"
    embedding_dim := embedding.length
    created_at := now }

/-- Outcome of the `add_memory` tool. -/
inductive AddResult where
  | ok (memory_id : String)
  | invalidParams
  | storeError (e : String)
deriving DecidableEq

/-- The `add_memory` tool handler from `src/server.ts`: insert the document
into the persistent store, then upsert into the vector index.  `insertOne`
may fail; a failure propagates out of the `await` before the upsert line
runs, leaving both states unchanged. -/
def add_memory (insertOne : List Doc → Doc → Except String (List Doc))
    (user_id : String) (agent_id : Option String) (scope : String)
    (encrypted_text : String) (embedding : Vec)
    (embedding_model : Option String) (memory_id : String) (now : Nat)
    (store : List Doc) (idx : IndexState) :
    AddResult × List Doc × IndexState :=
  let doc := mkDoc user_id agent_id scope encrypted_text embedding
    embedding_model memory_id now
  match insertOne store doc with
  | .error e => (.storeError e, store, idx)
  | .ok store2 =>
    (.ok memory_id, store2, LocalVectorIndex.upsert idx memory_id embedding)

/-- The `add_memory` tool including its zod input schema
(`embedding: z.array(z.number()).min(1)`): an empty embedding fails
validation before the handler runs. -/
def add_memory_tool (insertOne : List Doc → Doc → Except String (List Doc))
    (user_id : String) (agent_id : Option String) (scope : String)
    (encrypted_text : String) (embedding : Vec)
    (embedding_model : Option String) (memory_id : String) (now : Nat)
    (store : List Doc) (idx : IndexState) :
    AddResult × List Doc × IndexState :=
  if embedding.length < 1 then (.invalidParams, store, idx)
  else add_memory insertOne user_id agent_id scope encrypted_text embedding
    embedding_model memory_id now store idx

/-- A parsed JSON body of `POST /v1/memories`; `none` means the field is
absent. -/
structure PostBody where
  user_id : Option String
  agent_id : Option String
  scope : Option String
  encrypted_text : Option String
  embedding : Option Vec
  embedding_model : Option String

/-- Outcome of `POST /v1/memories`. -/
inductive PostResult where
  | clientError (code : Nat) (msg : String)
  | serverError (e : String)
  | ok (memory_id : String)
deriving DecidableEq

/-- The `POST /v1/memories` route from `src/server.ts`: the required-field
loop in its source order, then the empty-embedding guard, then insert
followed by upsert. -/
def postMemories (insertOne : List Doc → Doc → Except String (List Doc))
    (body : PostBody) (memory_id : String) (now : Nat)
    (store : List Doc) (idx : IndexState) :
    PostResult × List Doc × IndexState :=
  if body.user_id.isNone then (.clientError 400 "Missing user_id", store, idx)
  else if body.scope.isNone then (.clientError 400 "Missing scope", store, idx)
  else if body.encrypted_text.isNone then
    (.clientError 400 "Missing encrypted_text", store, idx)
  else if body.embedding.isNone then
    (.clientError 400 "Missing embedding", store, idx)
  else if (body.embedding.getD []).isEmpty then
    (.clientError 400 "embedding must be number[]", store, idx)
  else
    let emb := body.embedding.getD []
    let doc := mkDoc (body.user_id.getD "") body.agent_id (body.scope.getD "")
      (body.encrypted_text.getD "") emb body.embedding_model memory_id now
    match insertOne store doc with
    | .error e => (.serverError e, store, idx)
    | .ok store2 =>
      (.ok memory_id, store2, LocalVectorIndex.upsert idx memory_id emb)

/-- The `delete_memory` tool from `src/server.ts` (the `DELETE /v1/memories/:id`
route is the same logic): `deleteOne` removes the first document matching both
`user_id` and `memory_id`, the index delete is unconditional, and the reply is
always `{deleted: true}`. -/
def delete_memory (user_id : String) (memory_id : String)
    (store : List Doc) (idx : IndexState) :
    Bool × List Doc × IndexState :=
  (true,
   store.eraseP fun d => decide (d.user_id = user_id ∧ d.memory_id = memory_id),
   LocalVectorIndex.delete idx memory_id)

/-- `rebuildLocalVectorIndex` from `README.md`: clear the index, scan the
whole store, and upsert every document with a non-empty embedding. -/
def rebuildLocalVectorIndex (store : List Doc) (idx : IndexState) : IndexState :=
  store.foldl
    (fun m d =>
      if d.embedding.length > 0 then
        LocalVectorIndex.upsert m d.memory_id d.embedding
      else m)
    (LocalVectorIndex.clear idx)

/-- A concrete record owned by user `u2`, used in the shared-index
scenario. -/
def docA : Doc :=
  { memory_id := "a", user_id := "u2", agent_id := none, scope := "global"
    encrypted_text := "ta", embedding := [1], embedding_model := "client"
    embedding_dim := 1, created_at := 0 }

/-- A concrete record owned by user `u1`, used in the shared-index
scenario. -/
def docB : Doc :=
  { memory_id := "b", user_id := "u1", agent_id := none, scope := "global"
    encrypted_text := "tb", embedding := [0], embedding_model := "client"
    embedding_dim := 1, created_at := 0 }

/-! ## Helper lemmas -/

/-- Unfolding of `cosine` when the lengths agree. -/
theorem cosine_of_length_eq {a b : Vec} (h : a.length = b.length) :
    cosine a b =
      if normV a * normV b = 0 then 0 else dotV a b / (normV a * normV b) := by
  rw [cosine, if_neg (by simp [h])]
  rfl

/-- `mapSet` key membership. -/
theorem mem_keys_mapSet (m : IndexState) (i : String) (v : Vec) (id : String) :
    id ∈ keys (mapSet m i v) ↔ (i = id ∨ id ∈ keys m) := by
  unfold mapSet keys
  by_cases h : (m.any fun p => decide (p.1 = i)) = true
  · rw [if_pos h]
    have hik : i ∈ m.map Prod.fst := by
      obtain ⟨p, hp, hpi⟩ := List.any_eq_true.mp h
      exact List.mem_map.mpr ⟨p, hp, of_decide_eq_true hpi⟩
    have hmap : (m.map fun p => if p.1 = i then (i, v) else p).map Prod.fst =
        m.map Prod.fst := by
      rw [List.map_map]
      apply List.map_congr_left
      intro p _
      by_cases hp : p.1 = i
      · simp [Function.comp, hp]
      · simp [Function.comp, hp]
    rw [hmap]
    constructor
    · exact Or.inr
    · rintro (hi | hi)
      · exact hi ▸ hik
      · exact hi
  · rw [if_neg h]
    simp only [List.map_append, List.map_cons, List.map_nil, List.mem_append,
      List.mem_singleton]
    constructor
    · rintro (hi | hi)
      · exact Or.inr hi
      · exact Or.inl hi.symm
    · rintro (hi | hi)
      · exact Or.inr hi.symm
      · exact Or.inl hi

/-- `mapDelete` key membership. -/
theorem mem_keys_mapDelete (m : IndexState) (i : String) (id : String) :
    id ∈ keys (mapDelete m i) ↔ (id ∈ keys m ∧ id ≠ i) := by
  unfold mapDelete keys
  simp only [List.mem_map, List.mem_filter, decide_not]
  constructor
  · rintro ⟨p, ⟨hp, hpi⟩, hpid⟩
    refine ⟨⟨p, hp, hpid⟩, ?_⟩
    rw [← hpid]
    simpa using hpi
  · rintro ⟨⟨p, hp, hpid⟩, hid⟩
    refine ⟨p, ⟨hp, ?_⟩, hpid⟩
    simpa [hpid] using hid

/-- Running operations tracks key liveness. -/
theorem mem_keys_foldl_applyOp (ops : List Op) (id : String) :
    ∀ (m : IndexState) (b : Bool), (id ∈ keys m ↔ b = true) →
      (id ∈ keys (ops.foldl applyOp m) ↔ ops.foldl (liveStep id) b = true) := by
  induction ops with
  | nil => intro m b h; simpa using h
  | cons op rest ih =>
    intro m b h
    simp only [List.foldl_cons]
    apply ih
    cases op with
    | upsert i v =>
      simp only [applyOp, LocalVectorIndex.upsert, liveStep]
      rw [mem_keys_mapSet]
      by_cases hi : i = id
      · simp [hi]
      · simp [hi, h]
    | delete i =>
      simp only [applyOp, LocalVectorIndex.delete, liveStep]
      rw [mem_keys_mapDelete]
      by_cases hi : i = id
      · simp [hi]
      · rw [if_neg hi, h]
        exact ⟨fun hh => hh.1, fun hb => ⟨hb, fun hc => hi hc.symm⟩⟩

/-- A key is in the index produced by a sequence of operations iff it is
live after them. -/
theorem mem_keys_runOps (ops : List Op) (id : String) :
    id ∈ keys (runOps ops) ↔ live ops id = true :=
  mem_keys_foldl_applyOp ops id [] false (by simp [keys])

/-- The comparator is transitive. -/
theorem scoreLE_trans : ∀ a b c : String × ℝ, scoreLE a b → scoreLE b c → scoreLE a c := by
  intro a b c hab hbc
  simp only [scoreLE, decide_eq_true_eq] at hab hbc ⊢
  exact le_trans hbc hab

/-- The comparator is total. -/
theorem scoreLE_total : ∀ a b : String × ℝ, scoreLE a b || scoreLE b a := by
  intro a b
  simp only [scoreLE]
  rcases le_total a.2 b.2 with h | h
  · simp [h]
  · simp [h]

/-! ## Claims -/

/-- Claim C4: the similarity used by the index is
`dot(a,b) / (norm a * norm b)`, and it is `0` rather than an error whenever
the lengths differ or either norm is zero; `cosine` is total over all
vector shapes by construction. -/
theorem claim4_cosine_spec (a b : Vec) :
    (a.length = b.length → normV a ≠ 0 → normV b ≠ 0 →
      cosine a b = dotV a b / (normV a * normV b)) ∧
    ((a.length ≠ b.length ∨ normV a = 0 ∨ normV b = 0) → cosine a b = 0) := by
  by_cases hl : a.length = b.length
  · constructor
    · intro _ ha hb
      rw [cosine_of_length_eq hl, if_neg (mul_ne_zero ha hb)]
    · rintro (h | h | h)
      · exact absurd hl h
      · rw [cosine_of_length_eq hl, if_pos (by rw [h, zero_mul])]
      · rw [cosine_of_length_eq hl, if_pos (by rw [h, mul_zero])]
  · constructor
    · intro h; exact absurd h hl
    · intro _
      rw [cosine, if_pos hl]

/-- Witness for C4 at concrete inputs: equal-length nonzero vectors get the
true cosine, and a length mismatch scores `0`. -/
theorem claim4_cosine_spec_witness :
    cosine [(1 : ℝ)] [(1 : ℝ)] = dotV [(1 : ℝ)] [(1 : ℝ)] /
      (normV [(1 : ℝ)] * normV [(1 : ℝ)]) ∧
    cosine [(1 : ℝ)] [] = 0 := by
  constructor
  · exact (claim4_cosine_spec [(1 : ℝ)] [(1 : ℝ)]).1 rfl
      (by norm_num [normV, sumSq]) (by norm_num [normV, sumSq])
  · exact (claim4_cosine_spec [(1 : ℝ)] []).2 (Or.inl (by simp))

/-- Claim C2: after any finite sequence of upserts and deletes, `search`
returns at most `k` pairs, sorted by non-increasing score, and every
returned id was upserted and not subsequently deleted. -/
theorem claim2_search_sound (ops : List Op) (q : Vec) (k : Nat) :
    (LocalVectorIndex.search (runOps ops) q k).length ≤ k ∧
    (LocalVectorIndex.search (runOps ops) q k).Pairwise (fun a b => b.2 ≤ a.2) ∧
    ∀ p ∈ LocalVectorIndex.search (runOps ops) q k, live ops p.1 = true := by
  simp only [LocalVectorIndex.search]
  refine ⟨?_, ?_, ?_⟩
  · simp [List.length_take]
  · have hs := List.sorted_mergeSort scoreLE_trans scoreLE_total
      ((runOps ops).map fun p => (p.1, cosine q p.2))
    have ht := List.Pairwise.sublist (List.take_sublist k _) hs
    exact ht.imp fun h => by simpa [scoreLE] using h
  · intro p hp
    have hp1 : p ∈ ((runOps ops).map fun p => (p.1, cosine q p.2)).mergeSort scoreLE :=
      List.mem_of_mem_take hp
    have hp2 := List.mem_mergeSort.mp hp1
    obtain ⟨e, hem, he⟩ := List.mem_map.mp hp2
    have hkey : p.1 ∈ keys (runOps ops) :=
      List.mem_map.mpr ⟨e, hem, by rw [← he]⟩
    exact (mem_keys_runOps ops p.1).mp hkey

/-- Witness for C2: after a single concrete upsert, the returned id is
live. -/
theorem claim2_search_sound_witness :
    live [Op.upsert "a" [1]] "a" = true := by
  have h := (claim2_search_sound [Op.upsert "a" [1]] [] 5).2.2
  apply h ("a", cosine [] [1])
  have hs : LocalVectorIndex.search (runOps [Op.upsert "a" [1]]) [] 5 =
      [("a", cosine [] [1])] := by
    simp [LocalVectorIndex.search, runOps, applyOp, LocalVectorIndex.upsert,
      mapSet]
  rw [hs]
  simp

/-- Claim C9: `search` is deterministic on a fixed index state — repeated
calls agree — and equal-score ties are broken stably: a pair of scored
entries in index (insertion) order with the second score not exceeding the
first keeps that order in the sorted candidate list. -/
theorem claim9_search_deterministic (m : IndexState) (q : Vec) (k : Nat)
    (e1 e2 : String × ℝ)
    (hsub : [e1, e2].Sublist (m.map fun p => (p.1, cosine q p.2)))
    (hle : e2.2 ≤ e1.2) :
    LocalVectorIndex.search m q k = LocalVectorIndex.search m q k ∧
    [e1, e2].Sublist ((m.map fun p => (p.1, cosine q p.2)).mergeSort scoreLE) := by
  refine ⟨rfl, ?_⟩
  exact List.pair_sublist_mergeSort scoreLE_trans scoreLE_total
    (by simpa [scoreLE] using hle) hsub

/-- Witness for C9: two entries with identical vectors (hence equal scores)
stay in insertion order in the sorted list. -/
theorem claim9_search_deterministic_witness :
    LocalVectorIndex.search [("a", [1]), ("b", [1])] [] 2 =
      LocalVectorIndex.search [("a", [1]), ("b", [1])] [] 2 ∧
    [("a", cosine [] [1]), ("b", cosine [] [1])].Sublist
      ((([("a", [1]), ("b", [1])] : IndexState).map
        fun p => (p.1, cosine [] p.2)).mergeSort scoreLE) :=
  claim9_search_deterministic [("a", [1]), ("b", [1])] [] 2
    ("a", cosine [] [1]) ("b", cosine [] [1])
    (by simp) (le_refl _)

/-- The rebuild fold with its emptiness guard equals the plain upsert fold
over the documents that pass the guard. -/
theorem rebuild_foldl_eq :
    ∀ (l : List Doc) (init : IndexState),
      l.foldl
        (fun m d =>
          if d.embedding.length > 0 then
            LocalVectorIndex.upsert m d.memory_id d.embedding
          else m) init =
      (l.filter fun d => decide (d.embedding.length > 0)).foldl
        (fun acc d => LocalVectorIndex.upsert acc d.memory_id d.embedding)
        init := by
  intro l
  induction l with
  | nil => intro init; rfl
  | cons d rest ih =>
    intro init
    by_cases h : d.embedding.length > 0
    · simp [List.filter_cons, h, ih]
    · simp [List.filter_cons, h, ih]

/-- Replaying `mapSet` for entries with fresh, pairwise-distinct keys
appends them unchanged. -/
theorem foldl_mapSet_fresh :
    ∀ (m acc : IndexState), (∀ p ∈ m, p.1 ∉ keys acc) → (keys m).Nodup →
      m.foldl (fun a p => mapSet a p.1 p.2) acc = acc ++ m := by
  intro m
  induction m with
  | nil => intro acc _ _; simp
  | cons p rest ih =>
    intro acc hacc hnd
    simp only [List.foldl_cons]
    have habs : ¬(acc.any fun r => decide (r.1 = p.1)) = true := by
      intro hc
      obtain ⟨r, hr, hre⟩ := List.any_eq_true.mp hc
      exact hacc p (List.mem_cons_self _ _)
        (List.mem_map.mpr ⟨r, hr, of_decide_eq_true hre⟩)
    have h1 : mapSet acc p.1 p.2 = acc ++ [p] := by
      unfold mapSet
      rw [if_neg habs, Prod.mk.eta]
    have hptail : p.1 ∉ keys rest := by
      have : (p.1 :: keys rest).Nodup := hnd
      exact (List.nodup_cons.mp this).1
    have hacc2 : ∀ x ∈ rest, x.1 ∉ keys (acc ++ [p]) := by
      intro x hx hmem
      rw [keys, List.map_append] at hmem
      rcases List.mem_append.mp hmem with hmem | hmem
      · exact hacc x (List.mem_cons_of_mem p hx) hmem
      · have hxp : x.1 = p.1 := by simpa using hmem
        exact hptail (hxp ▸ List.mem_map.mpr ⟨x, hx, rfl⟩)
    have hnd2 : (keys rest).Nodup := by
      have : (p.1 :: keys rest).Nodup := hnd
      exact (List.nodup_cons.mp this).2
    rw [h1, ih (acc ++ [p]) hacc2 hnd2]
    simp

/-- Claim C8: `rebuildLocalVectorIndex` clears the index and then upserts
exactly the store records with a non-empty embedding, in scan order; and
for an index state with distinct keys, clearing and replaying every entry
in order leaves every `search` result unchanged. -/
theorem claim8_rebuild_replay (store : List Doc) (idx : IndexState)
    (m : IndexState) (hm : (keys m).Nodup) (q : Vec) (k : Nat) :
    rebuildLocalVectorIndex store idx =
      (store.filter fun d => decide (d.embedding.length > 0)).foldl
        (fun acc d => LocalVectorIndex.upsert acc d.memory_id d.embedding)
        [] ∧
    LocalVectorIndex.search
      (m.foldl (fun acc p => LocalVectorIndex.upsert acc p.1 p.2)
        (LocalVectorIndex.clear m)) q k =
      LocalVectorIndex.search m q k := by
  constructor
  · unfold rebuildLocalVectorIndex
    exact rebuild_foldl_eq store (LocalVectorIndex.clear idx)
  · have hrep : m.foldl (fun acc p => LocalVectorIndex.upsert acc p.1 p.2)
        (LocalVectorIndex.clear m) = m := by
      simp only [LocalVectorIndex.upsert, LocalVectorIndex.clear]
      simpa using foldl_mapSet_fresh m [] (by simp [keys]) hm
    rw [hrep]

/-- Witness for C8 with a concrete store and a concrete one-entry index. -/
theorem claim8_rebuild_replay_witness :
    rebuildLocalVectorIndex [] [] =
      (([] : List Doc).filter fun d => decide (d.embedding.length > 0)).foldl
        (fun acc d => LocalVectorIndex.upsert acc d.memory_id d.embedding)
        [] ∧
    LocalVectorIndex.search
      (([("a", [1])] : IndexState).foldl
        (fun acc p => LocalVectorIndex.upsert acc p.1 p.2)
        (LocalVectorIndex.clear [("a", [1])])) [] 1 =
      LocalVectorIndex.search [("a", [1])] [] 1 :=
  claim8_rebuild_replay [] [] [("a", [1])] (by simp [keys]) [] 1

/-- Claim C5: an empty embedding is rejected with a client error before any
store or index mutation, on both the REST route (explicit guard) and the
tool path (zod `min(1)`). -/
theorem claim5_empty_embedding
    (ins : List Doc → Doc → Except String (List Doc)) (body : PostBody)
    (mid : String) (now : Nat) (store : List Doc) (idx : IndexState)
    (h : body.embedding = some []) :
    (∃ msg, postMemories ins body mid now store idx =
      (.clientError 400 msg, store, idx)) ∧
    ∀ uid aid scope text model,
      add_memory_tool ins uid aid scope text [] model mid now store idx =
        (.invalidParams, store, idx) := by
  constructor
  · by_cases h1 : body.user_id.isNone = true <;>
      by_cases h2 : body.scope.isNone = true <;>
      by_cases h3 : body.encrypted_text.isNone = true <;>
      simp [postMemories, h, h1, h2, h3]
  · intro uid aid scope text model
    simp [add_memory_tool]

/-- Witness for C5 at a concrete request body with `embedding: []`. -/
theorem claim5_empty_embedding_witness :
    (∃ msg, postMemories (fun s d => .ok (s ++ [d]))
        ⟨some "u1", none, some "global", some "ct", some [], none⟩
        "m1" 0 [] [] =
      (.clientError 400 msg, [], [])) ∧
    add_memory_tool (fun s d => .ok (s ++ [d])) "u1" none "global" "ct" []
        none "m1" 0 [] [] =
      (.invalidParams, [], []) := by
  have h := claim5_empty_embedding (fun s d => .ok (s ++ [d]))
    ⟨some "u1", none, some "global", some "ct", some [], none⟩ "m1" 0 [] [] rfl
  exact ⟨h.1, h.2 "u1" none "global" "ct" none⟩

/-- Claim C6: `delete_memory` removes from the store only a record matching
both ids (the first such record, per `deleteOne`), leaves the store
untouched when nothing matches, removes the id from the index
unconditionally, and always reports `deleted: true`. -/
theorem claim6_delete_spec (uid mid : String) (store : List Doc)
    (idx : IndexState) :
    (delete_memory uid mid store idx).1 = true ∧
    (delete_memory uid mid store idx).2.1 =
      store.eraseP (fun d => decide (d.user_id = uid ∧ d.memory_id = mid)) ∧
    (∀ d ∈ store, ¬(d.user_id = uid ∧ d.memory_id = mid) →
      d ∈ (delete_memory uid mid store idx).2.1) ∧
    ((∀ d ∈ store, ¬(d.user_id = uid ∧ d.memory_id = mid)) →
      (delete_memory uid mid store idx).2.1 = store) ∧
    (delete_memory uid mid store idx).2.2 = LocalVectorIndex.delete idx mid ∧
    (∀ p ∈ idx, p.1 ≠ mid → p ∈ (delete_memory uid mid store idx).2.2) ∧
    (∀ p ∈ (delete_memory uid mid store idx).2.2, p.1 ≠ mid) := by
  refine ⟨rfl, rfl, ?_, ?_, rfl, ?_, ?_⟩
  · intro d hd hnd
    have hb : ¬(decide (d.user_id = uid ∧ d.memory_id = mid)) = true := by
      simpa using hnd
    exact (List.mem_eraseP_of_neg
      (p := fun d => decide (d.user_id = uid ∧ d.memory_id = mid)) hb).mpr hd
  · intro hall
    exact List.eraseP_of_forall_not fun d hd => by simpa using hall d hd
  · intro p hp hne
    exact List.mem_filter.mpr ⟨hp, by simpa using hne⟩
  · intro p hp
    simpa using (List.mem_filter.mp hp).2

/-- Witness for C6: deleting against an empty store leaves it unchanged
while the index entry with a different key survives the unconditional index
delete. -/
theorem claim6_delete_spec_witness :
    (delete_memory "u1" "m1" [] [("a", [1])]).2.1 = ([] : List Doc) ∧
    ("a", ([1] : Vec)) ∈ (delete_memory "u1" "m1" [] [("a", [1])]).2.2 := by
  have h := claim6_delete_spec "u1" "m1" [] [("a", [1])]
  exact ⟨h.2.2.2.1 (by simp),
    h.2.2.2.2.2.1 ("a", [1]) (by simp) (by decide)⟩

/-- Claim C7: in `add_memory` the persistent insert happens before the index
upsert: a failing insert returns the error with the index (and store)
untouched, and only a successful insert is followed by the upsert. -/
theorem claim7_insert_before_upsert
    (ins : List Doc → Doc → Except String (List Doc)) (uid : String)
    (aid : Option String) (scope text : String) (emb : Vec)
    (model : Option String) (mid : String) (now : Nat) (store : List Doc)
    (idx : IndexState) :
    (∀ e, ins store (mkDoc uid aid scope text emb model mid now) = .error e →
      add_memory ins uid aid scope text emb model mid now store idx =
        (.storeError e, store, idx)) ∧
    ∀ store2,
      ins store (mkDoc uid aid scope text emb model mid now) = .ok store2 →
      add_memory ins uid aid scope text emb model mid now store idx =
        (.ok mid, store2, LocalVectorIndex.upsert idx mid emb) := by
  constructor
  · intro e he
    simp [add_memory, he]
  · intro s2 hs
    simp [add_memory, hs]

/-- Witness for C7: a store that always fails leaves the index unchanged. -/
theorem claim7_insert_before_upsert_witness :
    add_memory (fun _ _ => .error "store down") "u1" none "global" "ct" [1]
      none "m1" 0 [] [] = (.storeError "store down", [], []) :=
  (claim7_insert_before_upsert (fun _ _ => .error "store down") "u1" none
    "global" "ct" [1] none "m1" 0 [] []).1 "store down" rfl

/-- What a successful `docMapGet` returns: a member of the list whose
`memory_id` is the requested id. -/
theorem docMapGet_eq_some {docs : List Doc} {id : String} {d : Doc}
    (h : docMapGet docs id = some d) : d ∈ docs ∧ d.memory_id = id := by
  unfold docMapGet at h
  have h1 := List.mem_of_find?_eq_some
    (p := fun x : Doc => decide (x.memory_id = id)) h
  have h2 := List.find?_some (p := fun x : Doc => decide (x.memory_id = id)) h
  exact ⟨List.mem_reverse.mp h1, of_decide_eq_true h2⟩

/-- `docMapGet` succeeds whenever some document carries the id. -/
theorem docMapGet_isSome {docs : List Doc} {id : String}
    (h : ∃ d ∈ docs, d.memory_id = id) : ∃ d, docMapGet docs id = some d := by
  unfold docMapGet
  obtain ⟨d, hd, hid⟩ := h
  have hs : (docs.reverse.find? fun d => decide (d.memory_id = id)).isSome := by
    rw [List.find?_isSome]
    exact ⟨d, List.mem_reverse.mpr hd, by simpa using hid⟩
  exact Option.isSome_iff_exists.mp hs

/-- Membership characterization of `search_memories` output. -/
theorem mem_search_memories (store : List Doc) (idx : IndexState)
    (uid : String) (aid : Option String) (q : Vec) (k : Nat) (o : OutMemory) :
    o ∈ search_memories store idx uid aid q k ↔
      ∃ id ∈ (LocalVectorIndex.search idx q k).map fun r => r.1, ∃ d,
        docMapGet (store.filter (scopeFilterB uid aid
          ((LocalVectorIndex.search idx q k).map fun r => r.1))) id = some d ∧
        o = project d := by
  simp only [search_memories]
  by_cases he : ((LocalVectorIndex.search idx q k).map fun r => r.1).isEmpty = true
  · rw [if_pos he]
    have hnil : ((LocalVectorIndex.search idx q k).map fun r => r.1) = [] := by
      simpa using he
    simp [hnil]
  · rw [if_neg he]
    simp only [List.mem_map, List.mem_filterMap]
    constructor
    · rintro ⟨d, ⟨id, hidmem, hget⟩, rfl⟩
      exact ⟨id, hidmem, d, hget, rfl⟩
    · rintro ⟨id, hidmem, d, hget, rfl⟩
      exact ⟨d, ⟨id, hidmem, hget⟩, rfl⟩

/-- Claim C1: a candidate record of the requesting user appears in the
results exactly when its scope is global, or its scope is agent and its
stored `agent_id` (with absent stored as `none`) equals the requesting
`agent_id` (with absent request as `none`); the membership is also
restricted to the requesting `user_id`. -/
theorem claim1_scope_iff (store : List Doc) (idx : IndexState) (uid : String)
    (aid : Option String) (q : Vec) (k : Nat)
    (hnd : (store.map Doc.memory_id).Nodup) (d : Doc) (hd : d ∈ store)
    (hcand : d.memory_id ∈ (LocalVectorIndex.search idx q k).map fun r => r.1) :
    (∃ o ∈ search_memories store idx uid aid q k, o.memory_id = d.memory_id) ↔
      (d.user_id = uid ∧
        (d.scope = "global" ∨ (d.scope = "agent" ∧ d.agent_id = aid))) := by
  constructor
  · rintro ⟨o, ho, hid⟩
    rw [mem_search_memories] at ho
    obtain ⟨id, hidmem, d2, hget, rfl⟩ := ho
    obtain ⟨hd2docs, hd2id⟩ := docMapGet_eq_some hget
    have hd2store : d2 ∈ store := (List.mem_filter.mp hd2docs).1
    have hfil2 : d2.user_id = uid ∧ d2.memory_id ∈
        ((LocalVectorIndex.search idx q k).map fun r => r.1) ∧
        (d2.scope = "global" ∨ (d2.scope = "agent" ∧ d2.agent_id = aid)) :=
      of_decide_eq_true (List.mem_filter.mp hd2docs).2
    have hid2 : d2.memory_id = d.memory_id := hid
    have hdd : d2 = d := List.inj_on_of_nodup_map hnd hd2store hd hid2
    rw [← hdd]
    exact ⟨hfil2.1, hfil2.2.2⟩
  · rintro ⟨hu, hsc⟩
    have hfil : scopeFilterB uid aid
        ((LocalVectorIndex.search idx q k).map fun r => r.1) d = true := by
      simp only [scopeFilterB, decide_eq_true_eq]
      exact ⟨hu, hcand, hsc⟩
    have hdocs : d ∈ store.filter (scopeFilterB uid aid
        ((LocalVectorIndex.search idx q k).map fun r => r.1)) :=
      List.mem_filter.mpr ⟨hd, hfil⟩
    obtain ⟨d2, hget⟩ := docMapGet_isSome ⟨d, hdocs, rfl⟩
    obtain ⟨_, hd2id⟩ := docMapGet_eq_some hget
    refine ⟨project d2, ?_, hd2id⟩
    rw [mem_search_memories]
    exact ⟨d.memory_id, hcand, d2, hget, rfl⟩

/-- Witness for C1: a single global record of the requesting user is a
candidate and is returned. -/
theorem claim1_scope_iff_witness :
    ∃ o ∈ search_memories
      [{ memory_id := "m1", user_id := "u1", agent_id := none
         scope := "global", encrypted_text := "ct", embedding := [1]
         embedding_model := "client", embedding_dim := 1, created_at := 0 }]
      [("m1", [1])] "u1" none [1] 5, o.memory_id = "m1" := by
  have hs : LocalVectorIndex.search [("m1", [1])] [1] 5 =
      [("m1", cosine [1] [1])] := by
    simp [LocalVectorIndex.search]
  have hcand : "m1" ∈ (LocalVectorIndex.search [("m1", [1])] [1] 5).map
      fun r => r.1 := by
    rw [hs]; simp
  exact (claim1_scope_iff
    [{ memory_id := "m1", user_id := "u1", agent_id := none
       scope := "global", encrypted_text := "ct", embedding := [1]
       embedding_model := "client", embedding_dim := 1, created_at := 0 }]
    [("m1", [1])] "u1" none [1] 5 (by simp)
    { memory_id := "m1", user_id := "u1", agent_id := none
      scope := "global", encrypted_text := "ct", embedding := [1]
      embedding_model := "client", embedding_dim := 1, created_at := 0 }
    (by simp) hcand).mpr ⟨rfl, Or.inl rfl⟩

/-- The ids of the fetched-and-reordered documents are exactly the candidate
ids that have a matching document, in candidate order. -/
theorem filterMap_docMapGet_keys (docs : List Doc) (ids : List String) :
    ((ids.filterMap fun id => docMapGet docs id).map fun d => d.memory_id) =
      ids.filter fun id => docs.any fun d => decide (d.memory_id = id) := by
  induction ids with
  | nil => rfl
  | cons id rest ih =>
    rw [List.filterMap_cons]
    cases hget : docMapGet docs id with
    | none =>
      have hany : (docs.any fun d => decide (d.memory_id = id)) = false := by
        rw [List.any_eq_false]
        intro d hd hdec
        obtain ⟨d2, h2⟩ := docMapGet_isSome ⟨d, hd, of_decide_eq_true hdec⟩
        rw [hget] at h2
        cases h2
      rw [List.filter_cons, if_neg (by simp [hany]), ih]
    | some d =>
      obtain ⟨hdmem, hdid⟩ := docMapGet_eq_some hget
      have hany : (docs.any fun d => decide (d.memory_id = id)) = true :=
        List.any_eq_true.mpr ⟨d, hdmem, by simpa using hdid⟩
      rw [List.filter_cons, if_pos hany, List.map_cons, ih, hdid]

/-- Claim C3: the returned ids are exactly the scope-eligible candidate ids
in the similarity-rank order of the index (misses dropped, never
backfilled), and every returned record is the `project`-ion — carrying
`encrypted_text`, `scope`, `agent_id`, `created_at`, `embedding_model` but
no embedding field — of a store document passing the scope filter. -/
theorem claim3_rank_order_projection (store : List Doc) (idx : IndexState)
    (uid : String) (aid : Option String) (q : Vec) (k : Nat) :
    ((search_memories store idx uid aid q k).map fun o => o.memory_id) =
      ((LocalVectorIndex.search idx q k).map fun r => r.1).filter
        (fun id => (store.filter (scopeFilterB uid aid
            ((LocalVectorIndex.search idx q k).map fun r => r.1))).any
          fun d => decide (d.memory_id = id)) ∧
    ∀ o ∈ search_memories store idx uid aid q k,
      ∃ d ∈ store,
        scopeFilterB uid aid
          ((LocalVectorIndex.search idx q k).map fun r => r.1) d = true ∧
        o = project d := by
  constructor
  · simp only [search_memories]
    by_cases he : ((LocalVectorIndex.search idx q k).map fun r => r.1).isEmpty = true
    · rw [if_pos he]
      have hnil : ((LocalVectorIndex.search idx q k).map fun r => r.1) = [] := by
        simpa using he
      simp [hnil]
    · rw [if_neg he, List.map_map]
      exact filterMap_docMapGet_keys _ _
  · intro o ho
    rw [mem_search_memories] at ho
    obtain ⟨id, hidmem, d, hget, rfl⟩ := ho
    obtain ⟨hddocs, _⟩ := docMapGet_eq_some hget
    have h1 := List.mem_filter.mp hddocs
    exact ⟨d, h1.1, h1.2, rfl⟩

/-- Concrete cosine value: identical one-dimensional unit vectors score 1. -/
theorem cosine_one_one : cosine [1] [1] = 1 := by
  rw [cosine_of_length_eq rfl]
  norm_num [normV, sumSq, dotV]

/-- Concrete cosine value: a zero vector scores 0. -/
theorem cosine_one_zero : cosine [1] [0] = 0 := by
  rw [cosine_of_length_eq (by rfl)]
  norm_num [normV, sumSq]

/-- Concrete search over the two-entry shared index: only the best-scoring
entry fills the single candidate slot. -/
theorem search_scenario :
    LocalVectorIndex.search [("a", [1]), ("b", [0])] [1] 1 = [("a", 1)] := by
  have hpair : List.Pairwise (fun x y => scoreLE x y = true)
      [(("a" : String), (1 : ℝ)), ("b", 0)] := by
    norm_num [List.pairwise_cons, scoreLE]
  simp only [LocalVectorIndex.search, List.map_cons, List.map_nil,
    cosine_one_one, cosine_one_zero]
  rw [List.mergeSort_of_sorted hpair]
  rfl

/-- Concrete orchestrated search as user `u1`: the candidate slot is spent
on the record of the other user, so nothing is returned. -/
theorem search_memories_scenario_u1 :
    search_memories [docA, docB] [("a", [1]), ("b", [0])] "u1" none [1] 1 =
      [] := by
  simp [search_memories, search_scenario, scopeFilterB, docA, docB, docMapGet]

/-- Concrete orchestrated search as user `u2`: the winning candidate is
fetched and projected. -/
theorem search_memories_scenario_u2 :
    search_memories [docA, docB] [("a", [1]), ("b", [0])] "u2" none [1] 1 =
      [project docA] := by
  simp [search_memories, search_scenario, scopeFilterB, docA, docB, docMapGet]

/-- Witness for C3: in the concrete shared-index scenario queried as `u2`,
the single returned record is the projection of an eligible store
document. -/
theorem claim3_rank_order_projection_witness :
    ∃ d ∈ ([docA, docB] : List Doc),
      scopeFilterB "u2" none
        ((LocalVectorIndex.search [("a", [1]), ("b", [0])] [1] 1).map
          fun r => r.1) d = true ∧
      project docA = project d := by
  have h := (claim3_rank_order_projection [docA, docB]
    [("a", [1]), ("b", [0])] "u2" none [1] 1).2
  apply h (project docA)
  rw [search_memories_scenario_u2]
  simp

/-- Claim C10: results always come from store documents owned by the
requesting user, yet the candidate ranking runs over the single shared
index: in the concrete scenario the requester owns one eligible record but
receives none, the record of the other user having taken the only candidate
slot. -/
theorem claim10_shared_index (store : List Doc) (idx : IndexState)
    (uid : String) (aid : Option String) (q : Vec) (k : Nat) :
    (∀ o ∈ search_memories store idx uid aid q k,
      ∃ d ∈ store, d.user_id = uid ∧ o = project d) ∧
    search_memories [docA, docB] [("a", [1]), ("b", [0])] "u1" none [1] 1 =
      [] ∧
    1 ≤ (([docA, docB] : List Doc).filter fun d =>
      decide (d.user_id = "u1" ∧ (d.scope = "global" ∨
        (d.scope = "agent" ∧ d.agent_id = (none : Option String))))).length := by
  refine ⟨?_, search_memories_scenario_u1, ?_⟩
  · intro o ho
    rw [mem_search_memories] at ho
    obtain ⟨id, hidmem, d, hget, rfl⟩ := ho
    obtain ⟨hddocs, _⟩ := docMapGet_eq_some hget
    have h1 := List.mem_filter.mp hddocs
    have h2 : d.user_id = uid ∧ d.memory_id ∈
        ((LocalVectorIndex.search idx q k).map fun r => r.1) ∧
        (d.scope = "global" ∨ (d.scope = "agent" ∧ d.agent_id = aid)) :=
      of_decide_eq_true h1.2
    exact ⟨d, h1.1, h2.1, rfl⟩
  · simp [docA, docB]

/-- Witness for C10: as user `u2` the returned record is `u2`-owned. -/
theorem claim10_shared_index_witness :
    ∃ d ∈ ([docA, docB] : List Doc), d.user_id = "u2" ∧
      project docA = project d := by
  have h := (claim10_shared_index [docA, docB] [("a", [1]), ("b", [0])]
    "u2" none [1] 1).1
  apply h (project docA)
  rw [search_memories_scenario_u2]
  simp

end Remora
